import Mathlib

/-!
Verification of the classification-and-aggregation pipeline of the
Hackaging aging-research agent repository.

The Lean definitions below are shallow embeddings of the Python source:

* `aggregate_csv`, `make_table1` embed `aggregate_results.py` (the
  multi-run CSV aggregator and the regeneration of the summary table).
  A pandas `DataFrame` of the papers table is embedded as a `List PRow`;
  `pd.concat` is list join, `drop_duplicates(subset=key, keep="first")`
  is `dropDuplicates`, and the `theory_id != 0` row filter is a list
  filter.  File discovery and CSV I/O are outside the embedding: the
  aggregator is modelled as a function of the list of loaded frames.
* `infer_theories`, `tag_theories`, `extract_answers`, `process_paper`
  and the run loop embed `src/aging_agent_pubmed.py`.  Network calls and
  the language model are opaque: each is represented by its parsed
  outcome (`none` models an exception / unparseable response).  Python
  floats holding fixed decimal constants are embedded as rationals.
* `epmc_tag_theories` embeds `SubmissionAgent.tag_theories` of
  `src/aging_agent_europepmc.py`, including the fact that its tag
  construction omits the dataclass's required `confidence` argument, so
  that construction site raises `TypeError` (modelled as `Except.error`).
-/

set_option linter.unusedVariables false

namespace AgingPipeline

/-- The fixed taxonomy of ten aging theories (`theory_mapping` /
`self.theories` in the source, identical in every file). -/
def theories : List (Int × String) :=
  [(1, "Free Radical Theory"),
   (2, "Telomere Shortening"),
   (3, "Mitochondrial Dysfunction"),
   (4, "Cellular Senescence"),
   (5, "Stem Cell Exhaustion"),
   (6, "Altered Intercellular Communication"),
   (7, "Loss of Proteostasis"),
   (8, "Deregulated Nutrient Sensing"),
   (9, "Genomic Instability"),
   (10, "Epigenetic Alterations")]

/-- One row of the papers table (`table2_papers.csv`):
columns `theory_id, paper_url, paper_name, paper_year`. -/
structure PRow where
  theory_id : Int
  paper_url : String
  paper_name : String
  paper_year : Int
deriving DecidableEq, Repr

/-- The natural key used by `aggregate_csv`'s
`drop_duplicates(subset=["theory_id", "paper_name", "paper_year"])`. -/
def pkey (r : PRow) : Int × String × Int :=
  (r.theory_id, r.paper_name, r.paper_year)

/-- Embedding of `combined_df.drop_duplicates(subset=dedup_cols, keep="first")`:
scan in order, keep a row only if its natural key has not been seen. -/
def dropDuplicates (seen : List (Int × String × Int)) : List PRow → List PRow
  | [] => []
  | r :: rs =>
    if pkey r ∈ seen then dropDuplicates seen rs
    else r :: dropDuplicates (pkey r :: seen) rs

/-- Embedding of `aggregate_csv` of `aggregate_results.py`, as a function of the list
of successfully loaded per-run frames: if no frame loaded return the
empty frame, else concatenate, drop duplicate natural keys keeping the
first occurrence, then drop every row with `theory_id == 0`. -/
def aggregate_csv (dfs : List (List PRow)) : List PRow :=
  match dfs with
  | [] => []
  | _ => (dropDuplicates [] dfs.flatten).filter (fun r => r.theory_id != 0)

/-- One row of the regenerated summary table (`table1_theories.csv`):
`theory_name` is `Option` because `Series.map` over the taxonomy dict
yields a missing value for ids outside it. -/
structure T1Row where
  theory_id : Int
  theory_name : Option String
  number_of_collected_papers : Nat
deriving DecidableEq, Repr

/-- The group keys of `table2.groupby("theory_id").size()`: the distinct
`theory_id` values, in ascending order (pandas sorts group keys). -/
def theoryIdsSorted (t2 : List PRow) : List Int :=
  List.insertionSort (· ≤ ·) (t2.map (·.theory_id)).dedup

/-- Regeneration of `table1` in `aggregate_results.py`: group the
aggregated papers table by `theory_id`, count rows per group, and map
the taxonomy for the name. -/
def make_table1 (t2 : List PRow) : List T1Row :=
  (theoryIdsSorted t2).map (fun tid =>
    { theory_id := tid
      theory_name := theories.lookup tid
      number_of_collected_papers := t2.countP (fun r => r.theory_id == tid) })

/-! Helper lemmas about the aggregator. -/

/-! ## Theory classifier (PubMed agent) -/

/-- The `TheoryTag` dataclass shared by both agents. `confidence` is a
Python float holding fixed decimal constants; embedded as a rational. -/
structure TheoryTag where
  theory_id : Int
  theory_name : String
  confidence : ℚ
  evidence_snippets : List String
  source : String
deriving DecidableEq, Repr

/-- Embedding of `text.lower()`: the character sequence of the lower-cased text. -/
def lower (s : String) : List Char := s.data.map Char.toLower

/-- Python's `kw in text_lower`: contiguous-substring test. -/
def kwMatch (kw : String) (textLower : List Char) : Bool :=
  decide (kw.data <:+: textLower)

/-- The fixed keyword table of `_infer_theories`, in the insertion order
of the Python dict (ids 1, 2, 3, 4, 8, 9). -/
def keywords : List (Int × List String × String) :=
  [(1, (["free radical", "ros", "reactive oxygen", "oxidative stress"],
        "Free Radical Theory")),
   (2, (["telomere", "telomerase"], "Telomere Shortening")),
   (3, (["mitochondria", "mitochondrial"], "Mitochondrial Dysfunction")),
   (4, (["senescence", "senescent"], "Cellular Senescence")),
   (8, (["mtor", "nutrient sensing", "insulin"], "Deregulated Nutrient Sensing")),
   (9, (["dna damage", "genomic instability"], "Genomic Instability"))]

/-- The tag `_infer_theories` appends for the first matching keyword
`kw` of a theory: confidence 0.6, provenance `keyword_inference`. -/
def mkKwTag (tid : Int) (name kw : String) : TheoryTag :=
  { theory_id := tid
    theory_name := name
    confidence := 0.6
    evidence_snippets := ["Keyword \x27" ++ kw ++ "\x27 found"]
    source := "keyword_inference" }

/-- The sentinel tag returned when no keyword matches at all. -/
def sentinelTag : TheoryTag :=
  { theory_id := 0
    theory_name := "General Aging Research"
    confidence := 0.5
    evidence_snippets := ["No specific keywords found"]
    source := "default" }

/-- Inner loop of `_infer_theories` for one keyword-table entry: the
first matching keyword (if any) yields one tag, then `break`. -/
def inferTheoryFor (textLower : List Char) (e : Int × List String × String) :
    Option TheoryTag :=
  (e.2.1.find? (fun kw => kwMatch kw textLower)).map (mkKwTag e.1 e.2.2)

/-- Embedding of `SubmissionAgent._infer_theories` of the PubMed agent: deterministic
keyword fallback over the lower-cased text, sentinel if nothing hits. -/
def infer_theories (text : String) : List TheoryTag :=
  let tags := keywords.filterMap (inferTheoryFor (lower text))
  if tags.isEmpty then [sentinelTag] else tags

/-- One entry of the model's `theory_tags` JSON array in the PubMed
agent.  Fields are `Option` because the Python code indexes the dict
(`tag_data["theory_id"]` etc.); a missing key raises `KeyError`, which
the enclosing handler turns into the fallback path.
`evidence_snippets` is read with `.get(..., [])`, so a missing value
defaults instead of raising. -/
structure TagData where
  theory_id : Option Int
  theory_name : Option String
  confidence : Option ℚ
  evidence_snippets : Option (List String)
deriving DecidableEq, Repr

/-- Embedding of `source="full_text" if len(text) > 1000 else "abstract"`. -/
def tagSource (text : String) : String :=
  if text.length > 1000 then "full_text" else "abstract"

/-- Construction of one `TheoryTag` from one model entry; `none` models
the `KeyError` raised on a missing required key. -/
def buildTag (src : String) (d : TagData) : Option TheoryTag :=
  match d.theory_id, d.theory_name, d.confidence with
  | some tid, some name, some conf =>
    some { theory_id := tid
           theory_name := name
           confidence := conf
           evidence_snippets := d.evidence_snippets.getD []
           source := src }
  | _, _, _ => none

/-- The tag-building loop of the PubMed `tag_theories`; an exception on
any entry aborts the whole loop (it is caught at function level). -/
def buildTags (src : String) : List TagData → Option (List TheoryTag)
  | [] => some []
  | d :: ds =>
    match buildTag src d, buildTags src ds with
    | some t, some ts => some (t :: ts)
    | _, _ => none

/-- Embedding of `SubmissionAgent.tag_theories` of the PubMed agent.  `resp` is the
parsed `theory_tags` array of the model response; `none` models a model
call failure, an unparseable response, or a response that is not a JSON
object — every one of which lands in the `except` handler. -/
def tag_theories (resp : Option (List TagData)) (title text : String) :
    List TheoryTag :=
  match resp with
  | none => infer_theories text
  | some ds =>
    match buildTags (tagSource text) ds with
    | none => infer_theories text
    | some tags => if tags.isEmpty then infer_theories text else tags

/-! ## Europe PMC agent classifier -/

/-- One entry of the model's JSON array in the Europe PMC agent
(`theory_id`, `confidence`, `evidence`), each read with `.get`. -/
structure EResult where
  theory_id : Option Int
  confidence : Option ℚ
  evidence : Option (List String)
deriving DecidableEq, Repr

/-- The tag returned by the Europe PMC `tag_theories` `except` handler. -/
def errorTag : TheoryTag :=
  { theory_id := 1
    theory_name := "Free Radical Theory"
    confidence := 0.3
    evidence_snippets := ["Error in processing"]
    source := "error" }

/-- The tag appended by the Europe PMC `tag_theories` when the loop
produced no tag. -/
def epmcDefaultTag : TheoryTag :=
  { theory_id := 1
    theory_name := "Free Radical Theory"
    confidence := 0.3
    evidence_snippets := ["Default classification"]
    source := "default" }

/-- The tag-building loop of the Europe PMC `tag_theories`.  For every
entry whose `theory_id` is a taxonomy key, the code calls
`TheoryTag(theory_id=..., theory_name=..., evidence_snippets=...,
source=...)` — omitting the dataclass's required `confidence` field —
so that call raises `TypeError`, modelled as `Except.error`.  Entries
whose id is missing or not a taxonomy key are skipped. -/
def epmcBuildTags (acc : List TheoryTag) : List EResult → Except Unit (List TheoryTag)
  | [] => Except.ok acc
  | r :: rs =>
    match r.theory_id with
    | some tid =>
      if (theories.lookup tid).isSome then Except.error ()
      else epmcBuildTags acc rs
    | none => epmcBuildTags acc rs

/-- Embedding of `SubmissionAgent.tag_theories` of the Europe PMC agent; `resp` is
the parsed JSON array of the model response (`none` = call or parse
failure). -/
def epmc_tag_theories (resp : Option (List EResult)) (text : String) :
    List TheoryTag :=
  match resp with
  | none => [errorTag]
  | some rs =>
    match epmcBuildTags [] rs with
    | Except.error _ => [errorTag]
    | Except.ok tags => if tags.isEmpty then [epmcDefaultTag] else tags

/-! ## Question extractor -/

/-- Python dict read `l.get(k)`: value of the first pair with key `k`. -/
def dget (l : List (String × String)) (k : String) : Option String :=
  (l.find? (fun p => p.1 == k)).map (·.2)

/-- Python dict write `l[k] = v`: replace the value in place when the
key exists (insertion position preserved), append otherwise. -/
def dset (l : List (String × String)) (k v : String) : List (String × String) :=
  if (l.find? (fun p => p.1 == k)).isSome
  then l.map (fun p => if p.1 == k then (k, v) else p)
  else l ++ [(k, v)]

/-- The `valid_q1` table of `extract_answers`. -/
def validQ1 : List String := ["Yes, quantitatively shown", "Yes, but not shown", "No"]

/-- The `valid_yes_no` table of `extract_answers`. -/
def validYesNo : List String := ["Yes", "No"]

/-- One validation step of `extract_answers`:
`if answers.get(k) not in dom: answers[k] = "No"`. -/
def fixField (dom : List String) (k : String) (l : List (String × String)) :
    List (String × String) :=
  match dget l k with
  | some v => if dom.contains v then l else dset l k "No"
  | none => dset l k "No"

/-- The nine answer keys. -/
def qKeys : List String := ["Q1", "Q2", "Q3", "Q4", "Q5", "Q6", "Q7", "Q8", "Q9"]

/-- The domain the source checks for each key: `valid_q1` for `Q1`,
`valid_yes_no` for `Q2..Q9`. -/
def qDomain (k : String) : List String := if k == "Q1" then validQ1 else validYesNo

/-- The validation sequence of `extract_answers`: the explicit `Q1`
check followed by the `for i in range(2, 10)` loop, as one list of
(domain, key) steps executed in order. -/
def qFields : List (List String × String) :=
  [(validQ1, "Q1"), (validYesNo, "Q2"), (validYesNo, "Q3"), (validYesNo, "Q4"),
   (validYesNo, "Q5"), (validYesNo, "Q6"), (validYesNo, "Q7"), (validYesNo, "Q8"),
   (validYesNo, "Q9")]

/-- The validation block of `extract_answers` applied to the parsed
model dict. -/
def validateAnswers (answers : List (String × String)) : List (String × String) :=
  qFields.foldl (fun acc f => fixField f.1 f.2 acc) answers

/-- The all-"No" record returned by the `except` handler. -/
def defaultAnswers : List (String × String) := qKeys.map (fun k => (k, "No"))

/-- Embedding of `SubmissionAgent.extract_answers`: `parsed` is the JSON dict parsed
from the model response (`none` models a model-call failure, a JSON
parse error, or a non-dict response — all caught by the handler). -/
def extract_answers (parsed : Option (List (String × String))) :
    List (String × String) :=
  match parsed with
  | some answers => validateAnswers answers
  | none => defaultAnswers

/-! ## Paper processor and run controller (PubMed agent) -/

/-- The dict returned by `fetch_metadata`. -/
structure PaperMeta where
  pmid : String
  title : String
  abstract : String
  year : Int
  authors : List String
  journal : String
  url : String
deriving DecidableEq, Repr

/-- One row of `table2_papers.csv` as appended by the agent. -/
structure T2Row where
  theory_id : Int
  paper_url : String
  paper_name : String
  paper_year : Int
deriving DecidableEq, Repr

/-- One row of `table3_annotations.csv`: key columns plus the nine
answers `Q1..Q9` in order. -/
structure T3Row where
  theory_id : Int
  paper_url : String
  paper_name : String
  paper_year : Int
  answers : List String
deriving DecidableEq, Repr

/-- One row of `supplementary/theory_tags_detailed.csv`; the evidence
cell joins the first two snippets with " | ". -/
structure DetailRow where
  paper_url : String
  theory_id : Int
  theory_name : String
  confidence : ℚ
  evidence_snippets : String
  source : String
deriving DecidableEq, Repr

/-- One row of `supplementary/paper_metadata.csv`. -/
structure MetaRow where
  paper_url : String
  pmid : String
  title : String
  abstract : String
  authors : String
  journal : String
  has_full_text : Bool
  full_text_source : String
  overall_confidence : String
  processing_time : ℚ
deriving DecidableEq, Repr

/-- One row of `table1_theories.csv` as appended by `finalize_table1`. -/
structure SumRow where
  theory_id : Int
  theory_name : String
  number_of_collected_papers : Nat
deriving DecidableEq, Repr

/-- The mutable state of one agent run: the five output tables (each a
list of appended rows), the in-memory `theory_papers` index, and the
`stats` counters used by the run loop. -/
structure AgentState where
  table1 : List SumRow
  table2 : List T2Row
  table3 : List T3Row
  theory_tags_detailed : List DetailRow
  paper_metadata : List MetaRow
  theory_papers : List (Int × List String)
  papers_processed : Nat
  full_text_retrieved : Nat
  total_cost : ℚ
deriving DecidableEq, Repr

/-- Python's `max(tags, key=lambda t: t.confidence)`: scan keeping the
current maximum, replacing it only on a strictly greater key, so the
first of several tied maxima wins. -/
def maxByConf (best : TheoryTag) : List TheoryTag → TheoryTag
  | [] => best
  | t :: ts => maxByConf (if best.confidence < t.confidence then t else best) ts

/-- Update of the `self.theory_papers` index: append the url to the
entry of `tid` (dict insertion position kept), or append a new entry. -/
def addToIndex : List (Int × List String) → Int → String → List (Int × List String)
  | [], tid, url => [(tid, [url])]
  | (j, us) :: rest, tid, url =>
    if j = tid then (j, us ++ [url]) :: rest
    else (j, us) :: addToIndex rest tid url

/-- The sequence of dict indexings `answers["Q1"], ..., answers["Q9"]`
in `_save_paper_to_csvs`; a missing key raises `KeyError` (`none`). -/
def getAll (l : List (String × String)) : List String → Option (List String)
  | [] => some []
  | k :: ks =>
    match dget l k, getAll l ks with
    | some v, some vs => some (v :: vs)
    | _, _ => none

/-- Embedding of `SubmissionAgent._save_paper_to_csvs`: appends one row to the
papers table (primary theory only), one to the annotations table, one
per tag to the detail table and one to the metadata table, and records
the paper under its primary theory in the in-memory index.  `none`
models an exception: `max` of an empty tag list, or a missing answer
key. -/
def save_paper_to_csvs (m : PaperMeta) (tags : List TheoryTag)
    (answers : List (String × String)) (has_ft : Bool) (src : Option String)
    (conf : String) (ptime : ℚ) (σ : AgentState) : Option AgentState :=
  match tags, getAll answers qKeys with
  | t0 :: ts, some qs =>
    some { σ with
      table2 := σ.table2 ++
        [⟨(maxByConf t0 ts).theory_id, m.url, m.title, m.year⟩]
      table3 := σ.table3 ++
        [⟨(maxByConf t0 ts).theory_id, m.url, m.title, m.year, qs⟩]
      theory_tags_detailed := σ.theory_tags_detailed ++ tags.map (fun t =>
        ⟨m.url, t.theory_id, t.theory_name, t.confidence,
         String.intercalate " | " (t.evidence_snippets.take 2), t.source⟩)
      paper_metadata := σ.paper_metadata ++ [⟨m.url, m.pmid, m.title, m.abstract,
        String.intercalate "; " (m.authors.take 5), m.journal, has_ft,
        src.getD "N/A", conf, ptime⟩]
      theory_papers := addToIndex σ.theory_papers (maxByConf t0 ts).theory_id m.url }
  | _, _ => none

/-- Embedding of `SubmissionAgent.process_paper`.  `fetch` is the `fetch_metadata`
outcome, `ftext` the `(full_text, source)` pair from the retriever,
`tagResp`/`ansResp` the parsed model responses for the two calls, and
`ptime` the measured wall-clock duration (opaque).  Returns
`some (success, state)`; `none` models an exception escaping to the
run-loop handler. -/
def process_paper (fetch : Option PaperMeta) (ftext : Option String × Option String)
    (tagResp : Option (List TagData)) (ansResp : Option (List (String × String)))
    (ptime : ℚ) (σ : AgentState) : Option (Bool × AgentState) :=
  match fetch with
  | none => some (false, σ)
  | some m =>
    let has_ft := ftext.1.isSome
    let σ1 := if has_ft
      then { σ with full_text_retrieved := σ.full_text_retrieved + 1 } else σ
    let text := ftext.1.getD m.abstract
    let tags := tag_theories tagResp m.title text
    let answers := extract_answers ansResp
    let conf := if has_ft then "high" else "medium"
    match save_paper_to_csvs m tags answers has_ft ftext.2 conf ptime σ1 with
    | none => none
    | some σ2 => some (true, { σ2 with
        papers_processed := σ2.papers_processed + 1
        total_cost := σ2.total_cost + 0.04 })

/-! ## Run controller -/

/-- The environment one search candidate presents to the run loop:
either the inputs `process_paper` will see, or an exception raised
during processing before any write (`raise` — caught by the loop's
handler), or a user interrupt (`interrupt` — breaks the loop). -/
inductive CandEnv where
  | ok (fetch : Option PaperMeta) (ftext : Option String × Option String)
       (tagResp : Option (List TagData)) (ansResp : Option (List (String × String)))
       (ptime : ℚ)
  | raise
  | interrupt

/-- The `for i, pmid in enumerate(pmids[:target_papers], 1)` loop of
`SubmissionAgent.run`: process each candidate, break on interrupt or
once the cumulative cost reaches the budget, continue past per-paper
exceptions. -/
def runLoop (maxCost : ℚ) : List CandEnv → AgentState → AgentState
  | [], σ => σ
  | c :: rest, σ =>
    match c with
    | CandEnv.interrupt => σ
    | CandEnv.raise => runLoop maxCost rest σ
    | CandEnv.ok f ft tr ar pt =>
      match process_paper f ft tr ar pt σ with
      | none => runLoop maxCost rest σ
      | some (_, σ2) =>
        if maxCost ≤ σ2.total_cost then σ2 else runLoop maxCost rest σ2

/-- The rows `finalize_table1` writes: one per `theory_papers` entry in
index order, with the taxonomy name or the "Unknown Theory" fallback. -/
def summaryRows (tp : List (Int × List String)) : List SumRow :=
  tp.map (fun e =>
    ⟨e.1, (theories.lookup e.1).getD ("Unknown Theory " ++ toString e.1), e.2.length⟩)

/-- Embedding of `SubmissionAgent.finalize_table1`: append the accumulated
theory→papers index to the summary table. -/
def finalize_table1 (σ : AgentState) : AgentState :=
  { σ with table1 := σ.table1 ++ summaryRows σ.theory_papers }

/-- Embedding of `search_pubmed`: the retrieval collaborator returns the relevance-
ranked id list capped at `retmax = max_results`. -/
def search_pubmed (idlist : List CandEnv) (max_results : Nat) : List CandEnv :=
  idlist.take max_results

/-- Embedding of `SubmissionAgent.run`: search for `2 × target_papers` candidates,
loop over the first `target_papers` of them, then finalize the summary
table. -/
def run (candidates : List CandEnv) (target_papers : Nat) (max_cost_usd : ℚ)
    (σ : AgentState) : AgentState :=
  finalize_table1
    (runLoop max_cost_usd
      ((search_pubmed candidates (target_papers * 2)).take target_papers) σ)

/-! ## Lemmas and claim theorems -/

lemma dropDuplicates_nodup_and_notMem (l : List PRow) :
    ∀ seen, ((dropDuplicates seen l).map pkey).Nodup ∧
      ∀ k ∈ (dropDuplicates seen l).map pkey, k ∉ seen := by
  induction l with
  | nil => intro seen; simp [dropDuplicates]
  | cons r rs ih =>
    intro seen
    by_cases h : pkey r ∈ seen
    · simpa [dropDuplicates, h] using ih seen
    · have ih' := ih (pkey r :: seen)
      refine ⟨?_, ?_⟩
      · simp only [dropDuplicates, h, if_false, List.map_cons, List.nodup_cons]
        exact ⟨fun hmem => (ih'.2 _ hmem) (List.mem_cons_self _ _), ih'.1⟩
      · intro k hk
        simp only [dropDuplicates, h, if_false, List.map_cons, List.mem_cons] at hk
        rcases hk with rfl | hk
        · exact h
        · intro hks
          exact (ih'.2 k hk) (List.mem_cons_of_mem _ hks)

lemma dropDuplicates_eq_self (l : List PRow) :
    ∀ seen, (l.map pkey).Nodup → (∀ r ∈ l, pkey r ∉ seen) →
      dropDuplicates seen l = l := by
  induction l with
  | nil => intro seen _ _; rfl
  | cons r rs ih =>
    intro seen hnd hdisj
    have hr : pkey r ∉ seen := hdisj r (List.mem_cons_self _ _)
    simp only [List.map_cons, List.nodup_cons] at hnd
    have : dropDuplicates (pkey r :: seen) rs = rs := by
      refine ih _ hnd.2 ?_
      intro s hs
      simp only [List.mem_cons]
      rintro (heq | hmem)
      · exact hnd.1 (heq ▸ List.mem_map_of_mem pkey hs)
      · exact hdisj s (List.mem_cons_of_mem _ hs) hmem
    simp [dropDuplicates, hr, this]

lemma mem_dropDuplicates_find? (l : List PRow) :
    ∀ seen r, r ∈ dropDuplicates seen l →
      pkey r ∉ seen ∧ l.find? (fun s => pkey s == pkey r) = some r := by
  induction l with
  | nil => intro seen r hr; simp [dropDuplicates] at hr
  | cons x xs ih =>
    intro seen r hr
    by_cases h : pkey x ∈ seen
    · simp only [dropDuplicates, h, if_true] at hr
      obtain ⟨hnot, hfind⟩ := ih seen r hr
      have hne : pkey x ≠ pkey r := fun heq => hnot (heq ▸ h)
      refine ⟨hnot, ?_⟩
      rw [List.find?_cons_of_neg _ (by simpa using hne)]
      exact hfind
    · simp only [dropDuplicates, h, if_false, List.mem_cons] at hr
      rcases hr with rfl | hr
      · exact ⟨h, List.find?_cons_of_pos _ (by simp)⟩
      · obtain ⟨hnot, hfind⟩ := ih _ r hr
        simp only [List.mem_cons, not_or] at hnot
        refine ⟨hnot.2, ?_⟩
        rw [List.find?_cons_of_neg _ (by simpa using fun heq => hnot.1 heq.symm)]
        exact hfind

lemma aggregate_csv_keys_nodup (dfs : List (List PRow)) :
    ((aggregate_csv dfs).map pkey).Nodup := by
  match dfs with
  | [] => simp [aggregate_csv]
  | d :: ds =>
    have h := (dropDuplicates_nodup_and_notMem ((d :: ds).flatten) []).1
    have hsub : List.Sublist
        (((dropDuplicates [] ((d :: ds).flatten)).filter
          (fun r => r.theory_id != 0)).map pkey)
        ((dropDuplicates [] ((d :: ds).flatten)).map pkey) :=
      (List.filter_sublist _).map pkey
    exact h.sublist hsub

/-- C1: Aggregation is idempotent: re-running `aggregate_csv` on (the
singleton file list containing) its own output returns that output
unchanged — dedup plus the `theory_id != 0` filter is a fixed point on
already-aggregated data. -/
theorem aggregate_idempotent (dfs : List (List PRow)) :
    aggregate_csv [aggregate_csv dfs] = aggregate_csv dfs := by
  match dfs with
  | [] => rfl
  | d :: ds =>
    show (dropDuplicates [] (aggregate_csv (d :: ds) ++ [].flatten)).filter _
        = aggregate_csv (d :: ds)
    have hnd : ((aggregate_csv (d :: ds)).map pkey).Nodup :=
      aggregate_csv_keys_nodup (d :: ds)
    rw [show aggregate_csv (d :: ds) ++ [].flatten = aggregate_csv (d :: ds) by simp]
    rw [dropDuplicates_eq_self _ [] hnd (by simp)]
    show ((dropDuplicates [] ((d :: ds)).flatten).filter _).filter _ = _
    rw [List.filter_filter]
    simp [aggregate_csv]

/-- C7: after aggregation the natural key `(theory_id, paper_name,
paper_year)` is unique, no surviving row has `theory_id == 0`, and each
surviving row is the first occurrence of its key in scan order. -/
theorem aggregate_invariant (dfs : List (List PRow)) :
    ((aggregate_csv dfs).map pkey).Nodup ∧
    (∀ r ∈ aggregate_csv dfs, r.theory_id ≠ 0) ∧
    (∀ r ∈ aggregate_csv dfs,
      (dfs.flatten).find? (fun s => pkey s == pkey r) = some r) := by
  refine ⟨aggregate_csv_keys_nodup dfs, ?_, ?_⟩
  · intro r hr
    match dfs with
    | [] => simp [aggregate_csv] at hr
    | d :: ds =>
      have := List.of_mem_filter hr
      simpa using this
  · intro r hr
    match dfs with
    | [] => simp [aggregate_csv] at hr
    | d :: ds =>
      have hmem : r ∈ dropDuplicates [] ((d :: ds).flatten) :=
        List.mem_of_mem_filter hr
      exact (mem_dropDuplicates_find? _ [] r hmem).2

/-- Witness for C7 at a concrete dataset: the duplicate key collapses,
the surviving row is the first occurrence, and no sentinel row remains. -/
theorem aggregate_invariant_witness :
    (PRow.mk 1 "uA" "P1" 2020) ∈
      aggregate_csv [[⟨1, "uA", "P1", 2020⟩, ⟨1, "uB", "P1", 2020⟩],
                     [⟨0, "uD", "P3", 2021⟩]] ∧
    ([[⟨1, "uA", "P1", 2020⟩, ⟨1, "uB", "P1", 2020⟩],
      [⟨0, "uD", "P3", 2021⟩]] : List (List PRow)).flatten.find?
        (fun s => pkey s == pkey ⟨1, "uA", "P1", 2020⟩) = some ⟨1, "uA", "P1", 2020⟩ :=
  ⟨by decide,
   (aggregate_invariant [[⟨1, "uA", "P1", 2020⟩, ⟨1, "uB", "P1", 2020⟩],
      [⟨0, "uD", "P3", 2021⟩]]).2.2 ⟨1, "uA", "P1", 2020⟩ (by decide)⟩

lemma theoryIdsSorted_nodup (t2 : List PRow) : (theoryIdsSorted t2).Nodup :=
  (List.perm_insertionSort _ _).nodup_iff.mpr (List.nodup_dedup _)

lemma mem_theoryIdsSorted (t2 : List PRow) (tid : Int) :
    tid ∈ theoryIdsSorted t2 ↔ tid ∈ t2.map (·.theory_id) :=
  ((List.perm_insertionSort _ _).mem_iff).trans (List.mem_dedup)

lemma make_table1_spec (t2 : List PRow) (tid : Int) :
    (tid ∈ t2.map (·.theory_id) →
      (make_table1 t2).countP (fun row => row.theory_id == tid) = 1 ∧
      ∀ row ∈ make_table1 t2, row.theory_id = tid →
        row.number_of_collected_papers = t2.countP (fun r => r.theory_id == tid) ∧
        row.theory_name = theories.lookup tid) ∧
    (tid ∉ t2.map (·.theory_id) →
      ∀ row ∈ make_table1 t2, row.theory_id ≠ tid) := by
  constructor
  · intro hmem
    constructor
    · have hcount : (make_table1 t2).countP (fun row => row.theory_id == tid)
          = (theoryIdsSorted t2).countP (fun i => i == tid) := by
        simp only [make_table1]
        exact List.countP_map _ _ _
      rw [hcount]
      exact List.count_eq_one_of_mem (theoryIdsSorted_nodup t2)
        ((mem_theoryIdsSorted t2 tid).mpr hmem)
    · intro row hrow hid
      simp only [make_table1, List.mem_map] at hrow
      obtain ⟨i, _, rfl⟩ := hrow
      simp only at hid
      subst hid
      exact ⟨rfl, rfl⟩
  · intro hmem row hrow hid
    simp only [make_table1, List.mem_map] at hrow
    obtain ⟨i, hi, rfl⟩ := hrow
    simp only at hid
    subst hid
    exact hmem ((mem_theoryIdsSorted t2 _).mp hi)

/-- C2: after aggregation of the papers table, each `theory_id` present
in the deduplicated table gets exactly one regenerated `table1` row,
whose count is the number of deduplicated rows with that id and whose
name is the taxonomy lookup for that id; absent ids contribute no row. -/
theorem table1_summary (dfs : List (List PRow)) (tid : Int) :
    (tid ∈ (aggregate_csv dfs).map (·.theory_id) →
      (make_table1 (aggregate_csv dfs)).countP (fun row => row.theory_id == tid) = 1 ∧
      ∀ row ∈ make_table1 (aggregate_csv dfs), row.theory_id = tid →
        row.number_of_collected_papers
          = (aggregate_csv dfs).countP (fun r => r.theory_id == tid) ∧
        row.theory_name = theories.lookup tid) ∧
    (tid ∉ (aggregate_csv dfs).map (·.theory_id) →
      ∀ row ∈ make_table1 (aggregate_csv dfs), row.theory_id ≠ tid) :=
  make_table1_spec (aggregate_csv dfs) tid

/-- Witness for C2 at a concrete dataset with two papers under theory 1
and one under theory 2. -/
theorem table1_summary_witness :
    (make_table1 (aggregate_csv
      [[⟨1, "u1", "A", 2020⟩, ⟨1, "u1b", "A2", 2020⟩, ⟨2, "u2", "B", 2019⟩]])).countP
        (fun row => row.theory_id == 1) = 1 :=
  ((table1_summary
      [[⟨1, "u1", "A", 2020⟩, ⟨1, "u1b", "A2", 2020⟩, ⟨2, "u2", "B", 2019⟩]] 1).1
    (by decide)).1

lemma inferTheoryFor_id (textLower : List Char) (e : Int × List String × String)
    (t : TheoryTag) (h : inferTheoryFor textLower e = some t) : t.theory_id = e.1 := by
  simp only [inferTheoryFor, Option.map_eq_some'] at h
  obtain ⟨kw, _, rfl⟩ := h
  rfl

lemma countP_filterMap_keywords_zero (textLower : List Char) (tid : Int)
    (l : List (Int × List String × String)) (h : ∀ e ∈ l, e.1 ≠ tid) :
    (l.filterMap (inferTheoryFor textLower)).countP (fun t => t.theory_id == tid) = 0 := by
  refine List.countP_eq_zero.mpr ?_
  intro t ht
  obtain ⟨e, he, hfe⟩ := List.mem_filterMap.mp ht
  have := inferTheoryFor_id textLower e t hfe
  simpa [this] using h e he

lemma countP_filterMap_keywords (textLower : List Char) (tid : Int)
    (kws : List String) (name : String) :
    ∀ l : List (Int × List String × String), (l.map (·.1)).Nodup →
      (tid, (kws, name)) ∈ l →
      (l.filterMap (inferTheoryFor textLower)).countP (fun t => t.theory_id == tid)
        = if (kws.find? (fun kw => kwMatch kw textLower)).isSome then 1 else 0 := by
  intro l
  induction l with
  | nil => intro _ hmem; simp at hmem
  | cons e es ih =>
    intro hnd hmem
    simp only [List.map_cons, List.nodup_cons] at hnd
    rcases List.mem_cons.mp hmem with heq | htail
    · subst heq
      have hzero : (es.filterMap (inferTheoryFor textLower)).countP
          (fun t => t.theory_id == tid) = 0 := by
        refine countP_filterMap_keywords_zero textLower tid es ?_
        intro e' he' heq'
        exact hnd.1 (heq' ▸ List.mem_map_of_mem (·.1) he')
      rcases hf : inferTheoryFor textLower (tid, (kws, name)) with _ | t
      · have : (kws.find? (fun kw => kwMatch kw textLower)) = none := by
          simpa [inferTheoryFor] using hf
        simp [List.filterMap_cons, hf, hzero, this]
      · have hid : t.theory_id = tid := inferTheoryFor_id _ _ _ hf
        have : (kws.find? (fun kw => kwMatch kw textLower)).isSome = true := by
          rcases hfind : kws.find? (fun kw => kwMatch kw textLower) with _ | kw
          · simp [inferTheoryFor, hfind] at hf
          · rfl
        simp [List.filterMap_cons, hf, List.countP_cons, hid, hzero, this]
    · have htid_mem : tid ∈ es.map (·.1) := List.mem_map_of_mem (·.1) htail
      have hne : e.1 ≠ tid := fun heq => hnd.1 (heq ▸ htid_mem)
      rcases hf : inferTheoryFor textLower e with _ | t
      · rw [List.filterMap_cons_none hf]
        exact ih hnd.2 htail
      · have hid : t.theory_id = e.1 := inferTheoryFor_id _ _ _ hf
        rw [List.filterMap_cons_some hf, List.countP_cons]
        have : (t.theory_id == tid) = false := by
          simp [hid, hne]
        rw [this]
        simpa using ih hnd.2 htail

lemma keyword_id_mem (t : TheoryTag) (ht : t ∈ keywords.filterMap (inferTheoryFor tl)) :
    t.theory_id ∈ ([1, 2, 3, 4, 8, 9] : List Int) := by
  obtain ⟨e, he, hfe⟩ := List.mem_filterMap.mp ht
  have hid := inferTheoryFor_id tl e t hfe
  have : e.1 ∈ keywords.map (·.1) := List.mem_map_of_mem (·.1) he
  rw [hid]
  simpa [keywords] using this

/-- C3: the keyword fallback scans the lower-cased text; for each entry
of the fixed keyword table the first matching keyword yields exactly one
tag (built by `mkKwTag`: confidence 0.6, provenance
`keyword_inference`); every keyword-inference tag's id lies in
{1, 2, 3, 4, 8, 9}; and if no keyword matches at all the result is
exactly the sentinel tag (id 0, "General Aging Research", confidence
0.5, provenance `default`). -/
theorem infer_theories_spec (text : String) :
    (∀ e ∈ keywords, (infer_theories text).countP (fun t => t.theory_id == e.1)
      = if (e.2.1.find? (fun kw => kwMatch kw (lower text))).isSome then 1 else 0) ∧
    (∀ e ∈ keywords, ∀ kw, e.2.1.find? (fun k => kwMatch k (lower text)) = some kw →
      mkKwTag e.1 e.2.2 kw ∈ infer_theories text) ∧
    (∀ t ∈ infer_theories text, t.source = "keyword_inference" →
      t.theory_id ∈ ([1, 2, 3, 4, 8, 9] : List Int) ∧ t.confidence = 0.6) ∧
    ((∀ e ∈ keywords, e.2.1.find? (fun kw => kwMatch kw (lower text)) = none) →
      infer_theories text = [sentinelTag]) := by
  have hnd : (keywords.map (·.1)).Nodup := by decide
  refine ⟨?_, ?_, ?_, ?_⟩
  · intro e he
    have hcount := countP_filterMap_keywords (lower text) e.1 e.2.1 e.2.2 keywords hnd
      (by simpa using he)
    by_cases hemp : (keywords.filterMap (inferTheoryFor (lower text))).isEmpty
    · have hnil : keywords.filterMap (inferTheoryFor (lower text)) = [] :=
        List.isEmpty_iff.mp hemp
      have hfe : inferTheoryFor (lower text) e = none := by
        rcases hf : inferTheoryFor (lower text) e with _ | t
        · rfl
        · exact absurd (hnil ▸ List.mem_filterMap.mpr ⟨e, he, hf⟩) (by simp)
      have hfind : e.2.1.find? (fun kw => kwMatch kw (lower text)) = none := by
        rcases hfind : e.2.1.find? (fun kw => kwMatch kw (lower text)) with _ | kw
        · rfl
        · simp [inferTheoryFor, hfind] at hfe
      have hne : (sentinelTag.theory_id == e.1) = false := by
        have : e.1 ∈ keywords.map (·.1) := List.mem_map_of_mem (·.1) he
        have : e.1 ≠ 0 := by
          simp only [keywords, List.map_cons, List.map_nil, List.mem_cons,
            List.not_mem_nil, or_false] at this
          rcases this with h | h | h | h | h | h <;> simp [h]
        simp [sentinelTag, Ne.symm this]
      simp [infer_theories, hemp, hfind, hne, List.countP_cons]
    · have hres : infer_theories text = keywords.filterMap (inferTheoryFor (lower text)) := by
        simp [infer_theories, hemp]
      rw [hres, hcount]
  · intro e he kw hkw
    have hfe : inferTheoryFor (lower text) e = some (mkKwTag e.1 e.2.2 kw) := by
      simp [inferTheoryFor, hkw]
    have hmem : mkKwTag e.1 e.2.2 kw ∈ keywords.filterMap (inferTheoryFor (lower text)) :=
      List.mem_filterMap.mpr ⟨e, he, hfe⟩
    have hemp : (keywords.filterMap (inferTheoryFor (lower text))).isEmpty = false := by
      rcases hl : keywords.filterMap (inferTheoryFor (lower text)) with _ | ⟨a, l⟩
      · rw [hl] at hmem; simp at hmem
      · rfl
    simpa [infer_theories, hemp] using hmem
  · intro t ht hsrc
    by_cases hemp : (keywords.filterMap (inferTheoryFor (lower text))).isEmpty
    · simp only [infer_theories, hemp, if_true, List.mem_singleton] at ht
      subst ht
      exact absurd hsrc (by decide)
    · simp only [infer_theories, hemp, if_false] at ht
      refine ⟨keyword_id_mem t ht, ?_⟩
      obtain ⟨e, _, hfe⟩ := List.mem_filterMap.mp ht
      simp only [inferTheoryFor, Option.map_eq_some'] at hfe
      obtain ⟨kw, _, rfl⟩ := hfe
      rfl
  · intro hall
    have : ∀ e ∈ keywords, inferTheoryFor (lower text) e = none := by
      intro e he
      simp [inferTheoryFor, hall e he]
    simp [infer_theories, List.filterMap_eq_nil_iff.mpr this]

/-- Witness for C3: "Telomerase" text yields exactly one theory-2 tag;
a text with no keyword yields exactly the sentinel tag. -/
theorem infer_theories_witness :
    (infer_theories "Telomerase and aging").countP (fun t => t.theory_id == 2) = 1 ∧
    infer_theories "qqq" = [sentinelTag] := by
  constructor
  · have h := (infer_theories_spec "Telomerase and aging").1
      (2, (["telomere", "telomerase"], "Telomere Shortening")) (by decide)
    rw [h]
    decide
  · exact (infer_theories_spec "qqq").2.2.2 (by decide)

lemma infer_theories_ne_nil (text : String) : infer_theories text ≠ [] := by
  rcases hl : keywords.filterMap (inferTheoryFor (lower text)) with _ | ⟨t, ts⟩
  · simp [infer_theories, hl]
  · simp [infer_theories, hl]

lemma tag_theories_ne_nil (resp : Option (List TagData)) (title text : String) :
    tag_theories resp title text ≠ [] := by
  rcases resp with _ | ds
  · exact infer_theories_ne_nil text
  · show (match buildTags (tagSource text) ds with
      | none => infer_theories text
      | some tags => if tags.isEmpty then infer_theories text else tags) ≠ []
    rcases buildTags (tagSource text) ds with _ | tags
    · exact infer_theories_ne_nil text
    · rcases tags with _ | ⟨t, ts⟩
      · exact infer_theories_ne_nil text
      · simp

lemma epmcBuildTags_ok (rs : List EResult) :
    ∀ acc tags, epmcBuildTags acc rs = Except.ok tags → tags = acc := by
  induction rs with
  | nil =>
    intro acc tags h
    simpa [epmcBuildTags] using h.symm
  | cons r rs ih =>
    intro acc tags h
    rcases hid : r.theory_id with _ | tid
    · simp only [epmcBuildTags, hid] at h
      exact ih acc tags h
    · simp only [epmcBuildTags, hid] at h
      by_cases hl : (theories.lookup tid).isSome
      · simp [hl] at h
      · rw [if_neg hl] at h
        exact ih acc tags h

lemma epmcBuildTags_error (rs : List EResult)
    (hhit : ∃ r ∈ rs, ∃ tid, r.theory_id = some tid ∧ (theories.lookup tid).isSome) :
    ∀ acc, epmcBuildTags acc rs = Except.error () := by
  induction rs with
  | nil => simp at hhit
  | cons r rs ih =>
    intro acc
    obtain ⟨r', hr', tid, hid, hl⟩ := hhit
    rcases List.mem_cons.mp hr' with rfl | hmem
    · simp [epmcBuildTags, hid, hl]
    · rcases hid' : r.theory_id with _ | tid'
      · simp only [epmcBuildTags, hid']
        exact ih ⟨r', hmem, tid, hid, hl⟩ acc
      · simp only [epmcBuildTags, hid']
        by_cases hl' : (theories.lookup tid').isSome
        · simp [hl']
        · rw [if_neg hl']
          exact ih ⟨r', hmem, tid, hid, hl⟩ acc

lemma epmc_tag_theories_cases (resp : Option (List EResult)) (text : String) :
    epmc_tag_theories resp text = [errorTag] ∨
    epmc_tag_theories resp text = [epmcDefaultTag] := by
  rcases resp with _ | rs
  · exact Or.inl rfl
  · rcases hb : epmcBuildTags [] rs with e | tags
    · left
      simp [epmc_tag_theories, hb]
    · right
      have : tags = [] := epmcBuildTags_ok rs [] tags hb
      subst this
      simp [epmc_tag_theories, hb]

/-- C5: the classifier is total and non-empty: every outcome of the
model call yields at least one tag; a parse failure, a missing-field
error, or an empty tag list each divert to the keyword fallback; a
non-empty model tag list is returned as-is.  The Europe PMC agent's
classifier is likewise always non-empty. -/
theorem tag_theories_total (resp : Option (List TagData)) (title text : String) :
    tag_theories resp title text ≠ [] ∧
    (resp = none → tag_theories resp title text = infer_theories text) ∧
    (∀ ds, resp = some ds → buildTags (tagSource text) ds = none →
      tag_theories resp title text = infer_theories text) ∧
    (∀ ds, resp = some ds → buildTags (tagSource text) ds = some [] →
      tag_theories resp title text = infer_theories text) ∧
    (∀ ds tags, resp = some ds → buildTags (tagSource text) ds = some tags →
      tags ≠ [] → tag_theories resp title text = tags) ∧
    (∀ eresp : Option (List EResult), epmc_tag_theories eresp text ≠ []) := by
  refine ⟨tag_theories_ne_nil resp title text, ?_, ?_, ?_, ?_, ?_⟩
  · rintro rfl; rfl
  · rintro ds rfl hb
    show (match buildTags (tagSource text) ds with
      | none => infer_theories text
      | some tags => if tags.isEmpty then infer_theories text else tags) = _
    rw [hb]
  · rintro ds rfl hb
    show (match buildTags (tagSource text) ds with
      | none => infer_theories text
      | some tags => if tags.isEmpty then infer_theories text else tags) = _
    rw [hb]
    simp
  · rintro ds tags rfl hb hne
    show (match buildTags (tagSource text) ds with
      | none => infer_theories text
      | some tags => if tags.isEmpty then infer_theories text else tags) = _
    rw [hb]
    simp [hne]
  · intro eresp
    rcases epmc_tag_theories_cases eresp text with h | h <;> simp [h]

/-- Witness for C5: a failed model call on a concrete text diverts to
the keyword fallback. -/
theorem tag_theories_total_witness :
    tag_theories none "Some title" "mitochondria study" =
      infer_theories "mitochondria study" :=
  (tag_theories_total none "Some title" "mitochondria study").2.1 rfl

/-- C9: in the Europe PMC agent, any model response that parses to a
non-empty array with at least one taxonomy-key entry reaches the
`TheoryTag` construction that omits the required `confidence` field;
the resulting `TypeError` is swallowed by the handler, so the function
returns exactly one tag with `theory_id=1`, confidence 0.3 and
provenance `error` — and in fact no call of this function ever returns
a model-derived tag: every result is the error tag or the default tag. -/
theorem epmc_model_tags_never_returned (rs : List EResult) (text : String)
    (hne : rs ≠ [])
    (hhit : ∃ r ∈ rs, ∃ tid, r.theory_id = some tid ∧ (theories.lookup tid).isSome) :
    epmc_tag_theories (some rs) text = [errorTag] ∧
    errorTag.theory_id = 1 ∧ errorTag.confidence = 0.3 ∧ errorTag.source = "error" ∧
    (∀ resp t2, epmc_tag_theories resp t2 = [errorTag] ∨
      epmc_tag_theories resp t2 = [epmcDefaultTag]) := by
  refine ⟨?_, rfl, rfl, rfl, fun resp t2 => epmc_tag_theories_cases resp t2⟩
  have _ := hne
  simp [epmc_tag_theories, epmcBuildTags_error rs hhit []]

/-- Witness for C9: one parsed entry with taxonomy id 2 makes the agent
return the error tag. -/
theorem epmc_model_tags_never_returned_witness :
    epmc_tag_theories (some [⟨some 2, some 0.9, some ["quote"]⟩]) "text" = [errorTag] :=
  (epmc_model_tags_never_returned [⟨some 2, some 0.9, some ["quote"]⟩] "text"
    (by decide)
    ⟨⟨some 2, some 0.9, some ["quote"]⟩, by simp, 2, rfl, by decide⟩).1

/-- C10 counterexample: the PubMed classifier does not truncate
model-provided evidence snippets — a model entry carrying four snippets
yields a returned tag carrying all four (> 3). -/
theorem evidence_snippets_counterexample :
    (tag_theories (some [⟨some 1, some "Free Radical Theory", some 0.9,
        some ["q1", "q2", "q3", "q4"]⟩]) "T" "some text").map
      (fun t => t.evidence_snippets.length) = [4] := by decide

/-- C10 (amended): tags produced by the keyword fallback and by the
Europe PMC classifier carry at most 3 evidence snippets (in fact
exactly one); PubMed model-path tags retain the model's full snippet
list, which is truncated (to 2) only by the CSV detail writer. -/
theorem evidence_snippets_amended (text : String) (resp : Option (List EResult)) :
    (∀ t ∈ infer_theories text, t.evidence_snippets.length ≤ 3) ∧
    (∀ t ∈ epmc_tag_theories resp text, t.evidence_snippets.length ≤ 3) := by
  constructor
  · intro t ht
    simp only [infer_theories] at ht
    by_cases hemp : (keywords.filterMap (inferTheoryFor (lower text))).isEmpty
    · rw [if_pos hemp] at ht
      simp only [List.mem_singleton] at ht
      subst ht
      decide
    · rw [if_neg hemp] at ht
      obtain ⟨e, _, hfe⟩ := List.mem_filterMap.mp ht
      simp only [inferTheoryFor, Option.map_eq_some'] at hfe
      obtain ⟨kw, _, rfl⟩ := hfe
      simp [mkKwTag]
  · intro t ht
    rcases epmc_tag_theories_cases resp text with h | h <;>
      rw [h] at ht <;> simp only [List.mem_singleton] at ht <;> subst ht <;> decide

/-- Witness for C10 (amended) at concrete inputs: the sentinel tag of
the fallback and the error tag of the Europe PMC agent both carry one
snippet. -/
theorem evidence_snippets_amended_witness :
    sentinelTag.evidence_snippets.length ≤ 3 ∧
    errorTag.evidence_snippets.length ≤ 3 := by
  have hq : keywords.filterMap (inferTheoryFor (lower "qqq")) = [] := by
    refine List.filterMap_eq_nil_iff.mpr ?_
    intro e he
    fin_cases he <;> rfl
  have h1 : sentinelTag ∈ infer_theories "qqq" := by
    simp [infer_theories, hq]
  have h2 : errorTag ∈ epmc_tag_theories none "qqq" :=
    List.mem_singleton.mpr rfl
  exact ⟨(evidence_snippets_amended "qqq" none).1 sentinelTag h1,
    (evidence_snippets_amended "qqq" none).2 errorTag h2⟩

lemma find?_map_replace (l : List (String × String)) (k v : String) :
    (l.map (fun p => if p.1 == k then (k, v) else p)).find? (fun p => p.1 == k)
      = (l.find? (fun p => p.1 == k)).map (fun _ => (k, v)) := by
  induction l with
  | nil => rfl
  | cons q ps ih =>
    rcases hb : (q.1 == k) with _ | _
    · have hmap : ((q :: ps).map (fun s => if s.1 == k then (k, v) else s))
          = q :: ps.map (fun s => if s.1 == k then (k, v) else s) := by
        rw [List.map_cons, if_neg (by simp [hb])]
      have h1 : ((q :: ps.map (fun s => if s.1 == k then (k, v) else s)).find?
            (fun s => s.1 == k))
          = (ps.map (fun s => if s.1 == k then (k, v) else s)).find?
            (fun s => s.1 == k) :=
        List.find?_cons_of_neg _ (by simp [hb])
      have h2 : ((q :: ps).find? (fun s => s.1 == k)) = ps.find? (fun s => s.1 == k) :=
        List.find?_cons_of_neg _ (by simp [hb])
      rw [hmap, h1, h2, ih]
    · have hmap : ((q :: ps).map (fun s => if s.1 == k then (k, v) else s))
          = (k, v) :: ps.map (fun s => if s.1 == k then (k, v) else s) := by
        rw [List.map_cons, if_pos hb]
      have h1 : (((k, v) :: ps.map (fun s => if s.1 == k then (k, v) else s)).find?
            (fun s => s.1 == k)) = some (k, v) :=
        List.find?_cons_of_pos _ (by simp)
      have h2 : ((q :: ps).find? (fun s => s.1 == k)) = some q :=
        List.find?_cons_of_pos _ hb
      rw [hmap, h1, h2, Option.map_some']

lemma find?_map_replace_ne (l : List (String × String)) (k v k' : String)
    (hne : (k' == k) = false) :
    (l.map (fun p => if p.1 == k then (k, v) else p)).find? (fun p => p.1 == k')
      = l.find? (fun p => p.1 == k') := by
  have hkk : ¬ k = k' := by
    intro heq
    subst heq
    simp at hne
  have hb1 : ((k : String) == k') = false := by simpa using hkk
  induction l with
  | nil => rfl
  | cons q ps ih =>
    rcases hb : (q.1 == k) with _ | _
    · have hmap : ((q :: ps).map (fun s => if s.1 == k then (k, v) else s))
          = q :: ps.map (fun s => if s.1 == k then (k, v) else s) := by
        rw [List.map_cons, if_neg (by simp [hb])]
      rcases hb' : (q.1 == k') with _ | _
      · have h1 : ((q :: ps.map (fun s => if s.1 == k then (k, v) else s)).find?
              (fun s => s.1 == k'))
            = (ps.map (fun s => if s.1 == k then (k, v) else s)).find?
              (fun s => s.1 == k') :=
          List.find?_cons_of_neg _ (by simp [hb'])
        have h2 : ((q :: ps).find? (fun s => s.1 == k'))
            = ps.find? (fun s => s.1 == k') :=
          List.find?_cons_of_neg _ (by simp [hb'])
        rw [hmap, h1, h2, ih]
      · have h1 : ((q :: ps.map (fun s => if s.1 == k then (k, v) else s)).find?
              (fun s => s.1 == k')) = some q :=
          List.find?_cons_of_pos _ hb'
        have h2 : ((q :: ps).find? (fun s => s.1 == k')) = some q :=
          List.find?_cons_of_pos _ hb'
        rw [hmap, h1, h2]
    · have hp : q.1 = k := by simpa using hb
      have hb2 : (q.1 == k') = false := by rw [hp]; exact hb1
      have hmap : ((q :: ps).map (fun s => if s.1 == k then (k, v) else s))
          = (k, v) :: ps.map (fun s => if s.1 == k then (k, v) else s) := by
        rw [List.map_cons, if_pos hb]
      have h1 : (((k, v) :: ps.map (fun s => if s.1 == k then (k, v) else s)).find?
            (fun s => s.1 == k'))
          = (ps.map (fun s => if s.1 == k then (k, v) else s)).find?
            (fun s => s.1 == k') :=
        List.find?_cons_of_neg _ (by simp [hb1])
      have h2 : ((q :: ps).find? (fun s => s.1 == k'))
          = ps.find? (fun s => s.1 == k') :=
        List.find?_cons_of_neg _ (by simp [hb2])
      rw [hmap, h1, h2, ih]

lemma dget_dset_self (l : List (String × String)) (k v : String) :
    dget (dset l k v) k = some v := by
  unfold dset
  by_cases h : (l.find? (fun p => p.1 == k)).isSome
  · rw [if_pos h]
    unfold dget
    rw [find?_map_replace]
    rcases hf : l.find? (fun p => p.1 == k) with _ | p
    · rw [hf] at h; simp at h
    · rw [hf]; rfl
  · rw [if_neg h]
    unfold dget
    have hf : l.find? (fun p => p.1 == k) = none := by
      rcases hf : l.find? (fun p => p.1 == k) with _ | p
      · exact hf
      · rw [hf] at h; simp at h
    rw [List.find?_append, hf]
    simp

lemma dget_dset_ne (l : List (String × String)) (k v k' : String)
    (hne : (k' == k) = false) : dget (dset l k v) k' = dget l k' := by
  unfold dset
  by_cases h : (l.find? (fun p => p.1 == k)).isSome
  · rw [if_pos h]
    unfold dget
    rw [find?_map_replace_ne l k v k' hne]
  · rw [if_neg h]
    unfold dget
    rw [List.find?_append]
    have hsing : ([(k, v)].find? (fun p => p.1 == k')) = none := by
      have hkk : ¬ k = k' := by
        intro heq
        subst heq
        simp at hne
      have hb1 : ((k : String) == k') = false := by simpa using hkk
      simp [List.find?, hb1]
    rw [hsing]
    simp

lemma dget_fixField_self (dom : List String) (k : String)
    (l : List (String × String)) (hno : "No" ∈ dom) :
    ∃ v, dget (fixField dom k l) k = some v ∧ v ∈ dom := by
  unfold fixField
  rcases hg : dget l k with _ | v
  · simp only [hg]
    exact ⟨"No", dget_dset_self l k "No", hno⟩
  · simp only [hg]
    by_cases hd : dom.contains v
    · rw [if_pos hd]
      exact ⟨v, hg, by simpa using hd⟩
    · rw [if_neg hd]
      exact ⟨"No", dget_dset_self l k "No", hno⟩

lemma dget_fixField_ne (dom : List String) (k : String)
    (l : List (String × String)) (k' : String) (hne : (k' == k) = false) :
    dget (fixField dom k l) k' = dget l k' := by
  unfold fixField
  rcases hg : dget l k with _ | v
  · simp only [hg]
    exact dget_dset_ne l k "No" k' hne
  · simp only [hg]
    by_cases hd : dom.contains v
    · rw [if_pos hd]
    · rw [if_neg hd]
      exact dget_dset_ne l k "No" k' hne

lemma fixField_of_valid (dom : List String) (k : String)
    (l : List (String × String)) (v : String) (hg : dget l k = some v)
    (hv : v ∈ dom) : fixField dom k l = l := by
  unfold fixField
  simp only [hg]
  rw [if_pos (by simpa using hv)]

lemma dget_foldl_not_mem (fs : List (List String × String))
    (l : List (String × String)) (k : String) (h : k ∉ fs.map (·.2)) :
    dget (fs.foldl (fun acc f => fixField f.1 f.2 acc) l) k = dget l k := by
  induction fs generalizing l with
  | nil => rfl
  | cons f fs ih =>
    simp only [List.map_cons, List.mem_cons, not_or] at h
    rw [List.foldl_cons, ih _ h.2, dget_fixField_ne _ _ _ _ (by simpa using h.1)]

lemma dget_foldl_mem (fs : List (List String × String)) (k : String)
    (dom : List String) (hmem : (dom, k) ∈ fs) (hnd : (fs.map (·.2)).Nodup)
    (hno : "No" ∈ dom) :
    ∀ l, ∃ v, dget (fs.foldl (fun acc f => fixField f.1 f.2 acc) l) k = some v ∧
      v ∈ dom := by
  induction fs with
  | nil => simp at hmem
  | cons f fs ih =>
    intro l
    simp only [List.map_cons, List.nodup_cons] at hnd
    rcases List.mem_cons.mp hmem with heq | htail
    · subst heq
      obtain ⟨v, hv, hvd⟩ := dget_fixField_self dom k l hno
      refine ⟨v, ?_, hvd⟩
      rw [List.foldl_cons, dget_foldl_not_mem fs _ k (by simpa using hnd.1), hv]
    · have := ih htail hnd.2
      rw [List.foldl_cons]
      exact this _

lemma dget_foldl_valid (fs : List (List String × String)) (k v : String)
    (dom : List String) (hmem : (dom, k) ∈ fs) (hnd : (fs.map (·.2)).Nodup)
    (hv : v ∈ dom) :
    ∀ l, dget l k = some v →
      dget (fs.foldl (fun acc f => fixField f.1 f.2 acc) l) k = some v := by
  induction fs with
  | nil => intro l hg; exact hg
  | cons f fs ih =>
    intro l hg
    simp only [List.map_cons, List.nodup_cons] at hnd
    rcases List.mem_cons.mp hmem with heq | htail
    · subst heq
      rw [List.foldl_cons, fixField_of_valid dom k l v hg hv,
        dget_foldl_not_mem fs _ k (by simpa using hnd.1)]
      exact hg
    · have hne : (k == f.2) = false := by
        have : f.2 ≠ k := by
          intro heq
          exact hnd.1 (heq ▸ List.mem_map_of_mem (·.2) htail)
        simpa using fun heq => this heq.symm
      rw [List.foldl_cons]
      exact ih htail hnd.2 _ (by rw [dget_fixField_ne _ _ _ _ hne]; exact hg)

lemma dget_fixField_invalid (dom : List String) (k : String)
    (l : List (String × String)) (h : ∀ v, dget l k = some v → v ∉ dom) :
    dget (fixField dom k l) k = some "No" := by
  unfold fixField
  rcases hg : dget l k with _ | v
  · simp only [hg]
    exact dget_dset_self l k "No"
  · simp only [hg]
    rw [if_neg (fun hc => h v hg (by simpa using hc))]
    exact dget_dset_self l k "No"

lemma dget_foldl_invalid (fs : List (List String × String)) (k : String)
    (dom : List String) (hmem : (dom, k) ∈ fs) (hnd : (fs.map (·.2)).Nodup) :
    ∀ l, (∀ v, dget l k = some v → v ∉ dom) →
      dget (fs.foldl (fun acc f => fixField f.1 f.2 acc) l) k = some "No" := by
  induction fs with
  | nil => simp at hmem
  | cons f fs ih =>
    intro l hinv
    simp only [List.map_cons, List.nodup_cons] at hnd
    rcases List.mem_cons.mp hmem with heq | htail
    · subst heq
      rw [List.foldl_cons, dget_foldl_not_mem fs _ k (by simpa using hnd.1)]
      exact dget_fixField_invalid dom k l hinv
    · have hne : (k == f.2) = false := by
        have : f.2 ≠ k := by
          intro heq
          exact hnd.1 (heq ▸ List.mem_map_of_mem (·.2) htail)
        simpa using fun heq => this heq.symm
      rw [List.foldl_cons]
      refine ih htail hnd.2 _ ?_
      intro v hv
      rw [dget_fixField_ne _ _ _ _ hne] at hv
      exact hinv v hv

lemma dget_defaultAnswers (k : String) (hk : k ∈ qKeys) :
    dget defaultAnswers k = some "No" := by
  fin_cases hk <;> rfl

/-- C4 counterexample: the validation never removes keys outside
`Q1..Q9`, so a parsed model dict carrying an extra key yields an output
that does not have exactly the keys `Q1..Q9`. -/
theorem extract_answers_counterexample :
    ("extra", "x") ∈ extract_answers (some [("Q1", "No"), ("extra", "x")]) ∧
    "extra" ∉ qKeys := by decide

lemma extract_answers_mem (parsed : Option (List (String × String))) :
    ∀ k ∈ qKeys, ∃ v, dget (extract_answers parsed) k = some v ∧ v ∈ qDomain k := by
  rcases parsed with _ | a
  · intro k hk
    fin_cases hk <;> exact ⟨"No", rfl, by decide⟩
  · intro k hk
    show ∃ v, dget (validateAnswers a) k = some v ∧ v ∈ qDomain k
    fin_cases hk
    · simpa using dget_foldl_mem qFields "Q1" validQ1 (by decide) (by decide)
        (by decide) a
    · simpa using dget_foldl_mem qFields "Q2" validYesNo (by decide) (by decide)
        (by decide) a
    · simpa using dget_foldl_mem qFields "Q3" validYesNo (by decide) (by decide)
        (by decide) a
    · simpa using dget_foldl_mem qFields "Q4" validYesNo (by decide) (by decide)
        (by decide) a
    · simpa using dget_foldl_mem qFields "Q5" validYesNo (by decide) (by decide)
        (by decide) a
    · simpa using dget_foldl_mem qFields "Q6" validYesNo (by decide) (by decide)
        (by decide) a
    · simpa using dget_foldl_mem qFields "Q7" validYesNo (by decide) (by decide)
        (by decide) a
    · simpa using dget_foldl_mem qFields "Q8" validYesNo (by decide) (by decide)
        (by decide) a
    · simpa using dget_foldl_mem qFields "Q9" validYesNo (by decide) (by decide)
        (by decide) a

/-- C4 (amended): for every input, each of `Q1..Q9` is present in the
output with a value in its domain (`Q1` three-valued, `Q2..Q9`
yes/no); a present valid field passes through unchanged; any invalid
or missing `Q1..Q9` value is replaced by "No", field by field; on the
exception path the output is exactly the all-"No" record; and keys
outside `Q1..Q9` are passed through untouched (they are not removed —
this is where the original claim fails). -/
theorem extract_answers_amended (parsed : Option (List (String × String))) :
    (∀ k ∈ qKeys, ∃ v, dget (extract_answers parsed) k = some v ∧ v ∈ qDomain k) ∧
    (∀ a, parsed = some a → ∀ k ∈ qKeys, ∀ v, dget a k = some v → v ∈ qDomain k →
      dget (extract_answers parsed) k = some v) ∧
    (∀ a, parsed = some a → ∀ k ∈ qKeys,
      (∀ v, dget a k = some v → v ∉ qDomain k) →
      dget (extract_answers parsed) k = some "No") ∧
    (parsed = none → extract_answers parsed = defaultAnswers ∧
      ∀ k ∈ qKeys, dget (extract_answers parsed) k = some "No") ∧
    (∀ a, parsed = some a → ∀ k, k ∉ qKeys →
      dget (extract_answers parsed) k = dget a k) := by
  refine ⟨extract_answers_mem parsed, ?_, ?_, ?_, ?_⟩
  · rintro a heq k hk v hg hv
    subst heq
    show dget (validateAnswers a) k = some v
    fin_cases hk
    · exact dget_foldl_valid qFields "Q1" v validQ1 (by decide) (by decide)
        (by simpa [qDomain] using hv) a hg
    · exact dget_foldl_valid qFields "Q2" v validYesNo (by decide) (by decide)
        (by simpa [qDomain] using hv) a hg
    · exact dget_foldl_valid qFields "Q3" v validYesNo (by decide) (by decide)
        (by simpa [qDomain] using hv) a hg
    · exact dget_foldl_valid qFields "Q4" v validYesNo (by decide) (by decide)
        (by simpa [qDomain] using hv) a hg
    · exact dget_foldl_valid qFields "Q5" v validYesNo (by decide) (by decide)
        (by simpa [qDomain] using hv) a hg
    · exact dget_foldl_valid qFields "Q6" v validYesNo (by decide) (by decide)
        (by simpa [qDomain] using hv) a hg
    · exact dget_foldl_valid qFields "Q7" v validYesNo (by decide) (by decide)
        (by simpa [qDomain] using hv) a hg
    · exact dget_foldl_valid qFields "Q8" v validYesNo (by decide) (by decide)
        (by simpa [qDomain] using hv) a hg
    · exact dget_foldl_valid qFields "Q9" v validYesNo (by decide) (by decide)
        (by simpa [qDomain] using hv) a hg
  · rintro a heq k hk hinv
    subst heq
    show dget (validateAnswers a) k = some "No"
    fin_cases hk
    · exact dget_foldl_invalid qFields "Q1" validQ1 (by decide) (by decide) a
        (fun v hv => by simpa [qDomain] using hinv v hv)
    · exact dget_foldl_invalid qFields "Q2" validYesNo (by decide) (by decide) a
        (fun v hv => by simpa [qDomain] using hinv v hv)
    · exact dget_foldl_invalid qFields "Q3" validYesNo (by decide) (by decide) a
        (fun v hv => by simpa [qDomain] using hinv v hv)
    · exact dget_foldl_invalid qFields "Q4" validYesNo (by decide) (by decide) a
        (fun v hv => by simpa [qDomain] using hinv v hv)
    · exact dget_foldl_invalid qFields "Q5" validYesNo (by decide) (by decide) a
        (fun v hv => by simpa [qDomain] using hinv v hv)
    · exact dget_foldl_invalid qFields "Q6" validYesNo (by decide) (by decide) a
        (fun v hv => by simpa [qDomain] using hinv v hv)
    · exact dget_foldl_invalid qFields "Q7" validYesNo (by decide) (by decide) a
        (fun v hv => by simpa [qDomain] using hinv v hv)
    · exact dget_foldl_invalid qFields "Q8" validYesNo (by decide) (by decide) a
        (fun v hv => by simpa [qDomain] using hinv v hv)
    · exact dget_foldl_invalid qFields "Q9" validYesNo (by decide) (by decide) a
        (fun v hv => by simpa [qDomain] using hinv v hv)
  · rintro heq
    subst heq
    exact ⟨rfl, fun k hk => dget_defaultAnswers k hk⟩
  · rintro a heq k hk
    subst heq
    show dget (validateAnswers a) k = dget a k
    refine dget_foldl_not_mem qFields a k ?_
    simpa [qFields, qKeys] using hk

/-- Witness for C4 (amended): a parsed dict with a valid `Q1` and an
out-of-domain `Q2` keeps `Q1` and coerces `Q2` to "No"; the exception
path yields "No" for a missing key. -/
theorem extract_answers_amended_witness :
    dget (extract_answers (some [("Q1", "Yes, but not shown"), ("Q2", "Maybe")]))
        "Q1" = some "Yes, but not shown" ∧
    dget (extract_answers (some [("Q1", "Yes, but not shown"), ("Q2", "Maybe")]))
        "Q2" = some "No" ∧
    dget (extract_answers none) "Q3" = some "No" := by
  refine ⟨?_, ?_, ?_⟩
  · exact (extract_answers_amended
      (some [("Q1", "Yes, but not shown"), ("Q2", "Maybe")])).2.1
      [("Q1", "Yes, but not shown"), ("Q2", "Maybe")] rfl "Q1" (by decide)
      "Yes, but not shown" (by decide) (by decide)
  · refine (extract_answers_amended
      (some [("Q1", "Yes, but not shown"), ("Q2", "Maybe")])).2.2.1
      [("Q1", "Yes, but not shown"), ("Q2", "Maybe")] rfl "Q2" (by decide) ?_
    intro v hv
    have h2 : dget [("Q1", "Yes, but not shown"), ("Q2", "Maybe")] "Q2"
        = some "Maybe" := by decide
    rw [h2] at hv
    injection hv with h3
    subst h3
    decide
  · exact ((extract_answers_amended none).2.2.2.1 rfl).2 "Q3" (by decide)

lemma getAll_isSome (l : List (String × String)) (ks : List String)
    (h : ∀ k ∈ ks, (dget l k).isSome) :
    ∃ vs, getAll l ks = some vs ∧ vs.length = ks.length := by
  induction ks with
  | nil => exact ⟨[], rfl, rfl⟩
  | cons k ks ih =>
    obtain ⟨v, hv⟩ := Option.isSome_iff_exists.mp (h k (List.mem_cons_self _ _))
    obtain ⟨vs, hvs, hlen⟩ := ih (fun k2 hk2 => h k2 (List.mem_cons_of_mem _ hk2))
    refine ⟨v :: vs, ?_, by simp [hlen]⟩
    simp only [getAll, hv, hvs]

lemma getAll_extract (parsed : Option (List (String × String))) :
    ∃ qs, getAll (extract_answers parsed) qKeys = some qs ∧ qs.length = 9 := by
  obtain ⟨qs, hqs, hlen⟩ := getAll_isSome (extract_answers parsed) qKeys
    (fun k hk => by
      obtain ⟨v, hv, _⟩ := extract_answers_mem parsed k hk
      simp [hv])
  exact ⟨qs, hqs, hlen⟩

lemma save_paper_spec (m : PaperMeta) (t0 : TheoryTag) (ts : List TheoryTag)
    (answers : List (String × String)) (has_ft : Bool) (src : Option String)
    (conf : String) (ptime : ℚ) (σ : AgentState) (qs : List String)
    (hqs : getAll answers qKeys = some qs) :
    save_paper_to_csvs m (t0 :: ts) answers has_ft src conf ptime σ = some
      { σ with
        table2 := σ.table2 ++
          [⟨(maxByConf t0 ts).theory_id, m.url, m.title, m.year⟩]
        table3 := σ.table3 ++
          [⟨(maxByConf t0 ts).theory_id, m.url, m.title, m.year, qs⟩]
        theory_tags_detailed := σ.theory_tags_detailed ++ (t0 :: ts).map (fun t =>
          ⟨m.url, t.theory_id, t.theory_name, t.confidence,
           String.intercalate " | " (t.evidence_snippets.take 2), t.source⟩)
        paper_metadata := σ.paper_metadata ++ [⟨m.url, m.pmid, m.title, m.abstract,
          String.intercalate "; " (m.authors.take 5), m.journal, has_ft,
          src.getD "N/A", conf, ptime⟩]
        theory_papers :=
          addToIndex σ.theory_papers (maxByConf t0 ts).theory_id m.url } := by
  simp only [save_paper_to_csvs, hqs]

lemma process_paper_char (ftext : Option String × Option String)
    (tagResp : Option (List TagData)) (ansResp : Option (List (String × String)))
    (ptime : ℚ) (σ : AgentState) (m : PaperMeta) :
    ∃ σ2, process_paper (some m) ftext tagResp ansResp ptime σ = some (true, σ2) ∧
      ∃ t0 ts qs,
        tag_theories tagResp m.title (ftext.1.getD m.abstract) = t0 :: ts ∧
        getAll (extract_answers ansResp) qKeys = some qs ∧ qs.length = 9 ∧
        σ2.table2 = σ.table2 ++
          [⟨(maxByConf t0 ts).theory_id, m.url, m.title, m.year⟩] ∧
        σ2.table3 = σ.table3 ++
          [⟨(maxByConf t0 ts).theory_id, m.url, m.title, m.year, qs⟩] ∧
        σ2.theory_tags_detailed.length
          = σ.theory_tags_detailed.length + (t0 :: ts).length ∧
        σ2.paper_metadata.length = σ.paper_metadata.length + 1 ∧
        σ2.table1 = σ.table1 ∧
        σ2.papers_processed = σ.papers_processed + 1 ∧
        σ2.total_cost = σ.total_cost + 0.04 := by
  obtain ⟨oft, osrc⟩ := ftext
  have hne := tag_theories_ne_nil tagResp m.title ((oft, osrc).1.getD m.abstract)
  rcases hts : tag_theories tagResp m.title ((oft, osrc).1.getD m.abstract)
    with _ | ⟨t0, ts⟩
  · exact absurd hts hne
  obtain ⟨qs, hqs, hlen⟩ := getAll_extract ansResp
  rcases oft with _ | ftxt
  · refine ⟨{ σ with
        table2 := σ.table2 ++
          [⟨(maxByConf t0 ts).theory_id, m.url, m.title, m.year⟩]
        table3 := σ.table3 ++
          [⟨(maxByConf t0 ts).theory_id, m.url, m.title, m.year, qs⟩]
        theory_tags_detailed := σ.theory_tags_detailed ++ (t0 :: ts).map (fun t =>
          ⟨m.url, t.theory_id, t.theory_name, t.confidence,
           String.intercalate " | " (t.evidence_snippets.take 2), t.source⟩)
        paper_metadata := σ.paper_metadata ++ [⟨m.url, m.pmid, m.title, m.abstract,
          String.intercalate "; " (m.authors.take 5), m.journal, false,
          osrc.getD "N/A", "medium", ptime⟩]
        theory_papers := addToIndex σ.theory_papers (maxByConf t0 ts).theory_id m.url
        papers_processed := σ.papers_processed + 1
        total_cost := σ.total_cost + 0.04 },
      ?_, t0, ts, qs, rfl, hqs, hlen, rfl, rfl, ?_, ?_, rfl, rfl, rfl⟩
    · have hts2 : tag_theories tagResp m.title m.abstract = t0 :: ts := hts
      simp only [process_paper, Option.isSome_none, Bool.false_eq_true, if_false,
        Option.getD_none, hts2,
        save_paper_spec m t0 ts (extract_answers ansResp) false osrc "medium"
          ptime σ qs hqs]
    · simp
    · simp
  · refine ⟨{ σ with
        table2 := σ.table2 ++
          [⟨(maxByConf t0 ts).theory_id, m.url, m.title, m.year⟩]
        table3 := σ.table3 ++
          [⟨(maxByConf t0 ts).theory_id, m.url, m.title, m.year, qs⟩]
        theory_tags_detailed := σ.theory_tags_detailed ++ (t0 :: ts).map (fun t =>
          ⟨m.url, t.theory_id, t.theory_name, t.confidence,
           String.intercalate " | " (t.evidence_snippets.take 2), t.source⟩)
        paper_metadata := σ.paper_metadata ++ [⟨m.url, m.pmid, m.title, m.abstract,
          String.intercalate "; " (m.authors.take 5), m.journal, true,
          osrc.getD "N/A", "high", ptime⟩]
        theory_papers := addToIndex σ.theory_papers (maxByConf t0 ts).theory_id m.url
        full_text_retrieved := σ.full_text_retrieved + 1
        papers_processed := σ.papers_processed + 1
        total_cost := σ.total_cost + 0.04 },
      ?_, t0, ts, qs, rfl, hqs, hlen, rfl, rfl, ?_, ?_, rfl, rfl, rfl⟩
    · have hts2 : tag_theories tagResp m.title ftxt = t0 :: ts := hts
      simp only [process_paper, Option.isSome_some, if_true, Option.getD_some, hts2,
        save_paper_spec m t0 ts (extract_answers ansResp) true osrc "high" ptime
          { σ with full_text_retrieved := σ.full_text_retrieved + 1 } qs hqs]
    · simp
    · simp

/-- C6: per-paper processing is atomic in its row counts: a failed
metadata fetch returns `false` and leaves every table untouched; a
successful fetch returns `true` and appends exactly one papers-table
row (primary theory only), one annotations-table row (primary theory
plus the nine answers), one detail-table row per returned tag, one
metadata-table row, and no summary-table row. -/
theorem process_paper_rows (ftext : Option String × Option String)
    (tagResp : Option (List TagData)) (ansResp : Option (List (String × String)))
    (ptime : ℚ) (σ : AgentState) :
    process_paper none ftext tagResp ansResp ptime σ = some (false, σ) ∧
    (∀ m : PaperMeta, ∃ σ2 t0 ts qs,
      process_paper (some m) ftext tagResp ansResp ptime σ = some (true, σ2) ∧
      tag_theories tagResp m.title (ftext.1.getD m.abstract) = t0 :: ts ∧
      getAll (extract_answers ansResp) qKeys = some qs ∧ qs.length = 9 ∧
      σ2.table2 = σ.table2 ++
        [⟨(maxByConf t0 ts).theory_id, m.url, m.title, m.year⟩] ∧
      σ2.table3 = σ.table3 ++
        [⟨(maxByConf t0 ts).theory_id, m.url, m.title, m.year, qs⟩] ∧
      σ2.theory_tags_detailed.length
        = σ.theory_tags_detailed.length + (t0 :: ts).length ∧
      σ2.paper_metadata.length = σ.paper_metadata.length + 1 ∧
      σ2.table1 = σ.table1) := by
  refine ⟨rfl, fun m => ?_⟩
  obtain ⟨σ2, hp, t0, ts, qs, hts, hqs, hlen, h2, h3, hd, hm, h1, _, _⟩ :=
    process_paper_char ftext tagResp ansResp ptime σ m
  exact ⟨σ2, t0, ts, qs, hp, hts, hqs, hlen, h2, h3, hd, hm, h1⟩

lemma process_paper_stats (f : Option PaperMeta)
    (ft : Option String × Option String) (tr : Option (List TagData))
    (ar : Option (List (String × String))) (pt : ℚ) (σ : AgentState)
    (b : Bool) (σ2 : AgentState)
    (h : process_paper f ft tr ar pt σ = some (b, σ2)) :
    ∃ j : Nat, σ2.papers_processed = σ.papers_processed + j ∧
      σ2.total_cost = σ.total_cost + 0.04 * j := by
  rcases f with _ | m
  · simp only [process_paper] at h
    injection h with h1
    injection h1 with hb hσ
    subst hσ
    exact ⟨0, by simp, by simp⟩
  · obtain ⟨σ2', hp, _, _, _, _, _, _, _, _, _, _, _, hpp, hc⟩ :=
      process_paper_char ft tr ar pt σ m
    rw [hp] at h
    injection h with h1
    injection h1 with hb hσ
    subst hσ
    exact ⟨1, by simp [hpp], by simp [hc]⟩

/-- C8: the Run Controller searches for up to `2 × target_papers`
candidates and processes them in original order up to `target_papers`
(the composition of the two caps is the `target_papers` prefix); a
per-paper processing exception is skipped and the loop continues; the
cost counter grows by exactly the flat 0.04 increment per successfully
processed paper; the loop stops as soon as the cumulative cost reaches
`max_cost` after a processed candidate; and after the loop the
accumulated theory→papers index is appended to the summary table. -/
theorem run_controller_spec (candidates : List CandEnv) (target_papers : Nat)
    (max_cost_usd : ℚ) (σ : AgentState) :
    run candidates target_papers max_cost_usd σ
      = finalize_table1 (runLoop max_cost_usd (candidates.take target_papers) σ) ∧
    (∀ σ' : AgentState,
      (finalize_table1 σ').table1 = σ'.table1 ++ summaryRows σ'.theory_papers) ∧
    (∀ rest σ', runLoop max_cost_usd (CandEnv.raise :: rest) σ'
      = runLoop max_cost_usd rest σ') ∧
    (∀ cands σ', ∃ n : Nat,
      (runLoop max_cost_usd cands σ').papers_processed
        = σ'.papers_processed + n ∧
      (runLoop max_cost_usd cands σ').total_cost = σ'.total_cost + 0.04 * n) ∧
    (∀ f ft tr ar pt rest σ' b σ2,
      process_paper f ft tr ar pt σ' = some (b, σ2) →
      max_cost_usd ≤ σ2.total_cost →
      runLoop max_cost_usd (CandEnv.ok f ft tr ar pt :: rest) σ' = σ2) := by
  refine ⟨?_, fun σ' => rfl, fun rest σ' => rfl, ?_, ?_⟩
  · show finalize_table1 (runLoop max_cost_usd
        ((candidates.take (target_papers * 2)).take target_papers) σ) = _
    rw [List.take_take, min_eq_left (by omega)]
  · intro cands
    induction cands with
    | nil => exact fun σ' => ⟨0, by simp [runLoop], by simp [runLoop]⟩
    | cons c rest ih =>
      intro σ'
      match c with
      | CandEnv.interrupt => exact ⟨0, by simp [runLoop], by simp [runLoop]⟩
      | CandEnv.raise =>
        obtain ⟨n, h1, h2⟩ := ih σ'
        exact ⟨n, by simpa [runLoop] using h1, by simpa [runLoop] using h2⟩
      | CandEnv.ok f ft tr ar pt =>
        rcases hp : process_paper f ft tr ar pt σ' with _ | ⟨b, σ2⟩
        · obtain ⟨n, h1, h2⟩ := ih σ'
          exact ⟨n, by simpa [runLoop, hp] using h1, by simpa [runLoop, hp] using h2⟩
        · obtain ⟨j, hj1, hj2⟩ := process_paper_stats f ft tr ar pt σ' b σ2 hp
          by_cases hstop : max_cost_usd ≤ σ2.total_cost
          · refine ⟨j, ?_, ?_⟩
            · simp only [runLoop, hp]
              rw [if_pos hstop]
              exact hj1
            · simp only [runLoop, hp]
              rw [if_pos hstop]
              exact hj2
          · obtain ⟨n, h1, h2⟩ := ih σ2
            refine ⟨j + n, ?_, ?_⟩
            · simp only [runLoop, hp, if_neg hstop]
              rw [h1, hj1]
              omega
            · simp only [runLoop, hp, if_neg hstop]
              rw [h2, hj2]
              push_cast
              ring
  · intro f ft tr ar pt rest σ' b σ2 hp hcost
    simp [runLoop, hp, hcost]

/-- Witness for C8 on a concrete run: a candidate whose fetch fails is
processed with no state change, and with the budget already exhausted
the loop stops immediately after it. -/
theorem run_controller_spec_witness :
    runLoop 0 [CandEnv.ok none (none, none) none none 0]
        ⟨[], [], [], [], [], [], 0, 0, 1⟩
      = ⟨[], [], [], [], [], [], 0, 0, 1⟩ :=
  (run_controller_spec [] 0 0 ⟨[], [], [], [], [], [], 0, 0, 1⟩).2.2.2.2
    none (none, none) none none 0 [] ⟨[], [], [], [], [], [], 0, 0, 1⟩
    false ⟨[], [], [], [], [], [], 0, 0, 1⟩ rfl (by norm_num)

end AgingPipeline
